import Mathlib

/-!
Shallow embedding of the core of the `midi_lattice` plugin (Rust), together with
proofs about the pitch-class arithmetic (`src/tuning.rs`), the lattice mapping,
the voice registry (`src/midi.rs`, `src/lib.rs`), the voice-matching search
(`src/editor/lattice/grid.rs`) and the tuning learner
(`src/editor/tuning_learn_button.rs`).

Machine integers are modelled as `Nat`/`Int`; wherever the Rust code can
overflow or wrap, the wrap is made explicit (`% 2^32`, `% 2^64`,
two's-complement wrap for `i32`), following release-mode (wrapping) semantics.
Rust code that can fail to return normally (unbounded loops, rejected
insertions) is modelled with `Option`.
-/

/-! ## PitchClass and PitchClassDistance (src/tuning.rs) -/

/-- Constant `OCTAVE_MICROCENTS` from src/tuning.rs: `1_200 * 1_000_000`. -/
def OCTAVE_MICROCENTS : Nat := 1200 * 1000000

/-- Type `PitchClass(u32)` from src/tuning.rs: a pitch class stored as an integer
number of microcents.  The `u32` payload is modelled as a `Nat`; every value
the program constructs fits far below `2^32`, so no `u32` wrap is reachable
and none is modelled on the payload itself. -/
structure PitchClass where
  val : Nat
deriving DecidableEq

/-- Rust `PitchClass::from_microcents` (src/tuning.rs line 80). -/
def PitchClass.from_microcents (microcents : Nat) : PitchClass :=
  ⟨microcents % OCTAVE_MICROCENTS⟩

/-- Rust `impl Add for PitchClass` (src/tuning.rs line 137): `(self.0 + rhs.0) % OCTAVE_MICROCENTS`.
The `u32` addition cannot wrap for reachable values (each summand is at most
`OCTAVE_MICROCENTS`, and `2 * OCTAVE_MICROCENTS < 2^32`). -/
def PitchClass.add (a b : PitchClass) : PitchClass :=
  ⟨(a.val + b.val) % OCTAVE_MICROCENTS⟩

/-- Rust `impl Neg for PitchClass` (src/tuning.rs line 144): `OCTAVE_MICROCENTS - self.0`.
Note: no reduction modulo the octave here; for `self.0 = 0` the result is
exactly `OCTAVE_MICROCENTS`.  The `u32` subtraction cannot underflow for
reachable values (`self.0 ≤ OCTAVE_MICROCENTS`). -/
def PitchClass.neg (a : PitchClass) : PitchClass :=
  ⟨OCTAVE_MICROCENTS - a.val⟩

/-- Rust `impl Sub for PitchClass` (src/tuning.rs line 151): `self + -other`. -/
def PitchClass.sub (a b : PitchClass) : PitchClass :=
  a.add b.neg

/-- Type `PitchClassDistance(u32)` from src/tuning.rs. -/
structure PitchClassDistance where
  val : Nat
deriving DecidableEq

/-- Rust `PitchClass::distance_to` (src/tuning.rs line 84):
`min((self - other).0, (other - self).0)`. -/
def PitchClass.distance_to (a b : PitchClass) : PitchClassDistance :=
  ⟨min (a.sub b).val (b.sub a).val⟩

/-- Rust `PitchClass::from_midi_note` (src/tuning.rs line 88):
`(note % 12) * MIDI_NOTE_TO_CENTS * CENTS_TO_MICROCENTS`. -/
def PitchClass.from_midi_note (note : Nat) : PitchClass :=
  ⟨(note % 12) * 100 * 1000000⟩

/-- Rust `PitchClass::round` (src/tuning.rs line 45). -/
def PitchClass.round (p : PitchClass) (decimal_digits : Nat) : PitchClass :=
  if decimal_digits > 6 then p
  else
    let raised : Nat := 10 ^ (6 - decimal_digits)
    PitchClass.from_microcents
      (if raised / 2 ≤ p.val % raised then p.val - p.val % raised + raised
       else p.val - p.val % raised)

/-- Rust `PitchClassDistance::from_microcents` (src/tuning.rs line 170). -/
def PitchClassDistance.from_microcents (microcents : Nat) : PitchClassDistance :=
  let modded_microcents := microcents % OCTAVE_MICROCENTS
  let flipped_microcents := OCTAVE_MICROCENTS - modded_microcents
  ⟨if modded_microcents < flipped_microcents then modded_microcents
    else flipped_microcents⟩

/-- Rust `PitchClassDistance::from_cents` (src/tuning.rs line 180). -/
def PitchClassDistance.from_cents (cents : Nat) : PitchClassDistance :=
  PitchClassDistance.from_microcents (cents * 1000000)

/-- Rust `impl From<PitchClassDistance> for PitchClass` (src/tuning.rs line 158). -/
def PitchClass.ofDistance (d : PitchClassDistance) : PitchClass :=
  PitchClass.from_microcents d.val

/-- Two's-complement wrap of an `Int` into the `i32` range, the release-mode
result of an overflowing `i32` computation. -/
def wrapI32 (x : Int) : Int := (x + 2 ^ 31) % 2 ^ 32 - 2 ^ 31

/-- The Rust cast `x as u64` for an `i32` value `x` (sign extension):
the representative of `x` modulo `2^64`. -/
def u64ofI32 (x : Int) : Nat := (x % (2 ^ 64 : Int)).toNat

/-- Rust `PitchClass::multiply` (src/tuning.rs line 128):

`if rhs >= 0 { ((rhs as u64 * u64::from(self.0)) % u64::from(OCTAVE_MICROCENTS)) as u32 }`
`else { ((-rhs as u64 * u64::from((-self).0)) % u64::from(OCTAVE_MICROCENTS)) as u32 }`

`rhs : i32` is modelled as an `Int` (callers always pass values in the `i32`
range).  In the negative branch, `-rhs` is an `i32` negation, which wraps for
`rhs = i32::MIN` (release semantics), and the cast to `u64` sign-extends; the
`u64` product is taken modulo `2^64`.  The final `% OCTAVE_MICROCENTS` makes
the `as u32` cast exact. -/
def PitchClass.multiply (p : PitchClass) (rhs : Int) : PitchClass :=
  if 0 ≤ rhs then ⟨rhs.toNat * p.val % 2 ^ 64 % OCTAVE_MICROCENTS⟩
  else ⟨u64ofI32 (wrapI32 (-rhs)) * p.neg.val % 2 ^ 64 % OCTAVE_MICROCENTS⟩

/-! ## PrimeCountVector and the lattice mapping (src/tuning.rs) -/

/-- Type `PrimeCountVector` (src/tuning.rs line 202): three `i32` exponents,
modelled as `Int`s in the `i32` range. -/
structure PrimeCountVector where
  threes : Int
  fives : Int
  sevens : Int
deriving DecidableEq

/-- Rust `PrimeCountVector::pitch_class` (src/tuning.rs line 218):
`three_tuning.multiply(self.threes) + five_tuning.multiply(self.fives) + seven_tuning.multiply(self.sevens)`.
No reference offset is added here, and `DrawNodeArgs::new`
(src/editor/lattice/grid.rs line 305) uses this value directly as the node's
pitch class. -/
def PrimeCountVector.pitch_class (v : PrimeCountVector)
    (three_tuning five_tuning seven_tuning : PitchClass) : PitchClass :=
  ((three_tuning.multiply v.threes).add (five_tuning.multiply v.fives)).add
    (seven_tuning.multiply v.sevens)

/-- Componentwise (mathematical) sum of two prime-count vectors. -/
def PrimeCountVector.vadd (a b : PrimeCountVector) : PrimeCountVector :=
  ⟨a.threes + b.threes, a.fives + b.fives, a.sevens + b.sevens⟩

/-- Modelled from the spec: section 4.2 defines the lattice mapping as
`pitch_class(vector, tuning) = tuning.three.multiply(vector.threes) + tuning.five.multiply(vector.fives) + tuning.seven.multiply(vector.sevens) + tuning.reference_offset`.
This definition follows the spec's words (it adds the reference offset);
the source's `PrimeCountVector::pitch_class` above does not. -/
def pitch_class_with_reference_offset (v : PrimeCountVector)
    (three_tuning five_tuning seven_tuning reference_offset : PitchClass) : PitchClass :=
  (v.pitch_class three_tuning five_tuning seven_tuning).add reference_offset

/-! ## Helper lemmas about the pitch-class arithmetic -/

theorem PitchClass.val_inj {a b : PitchClass} (h : a.val = b.val) : a = b := by
  cases a; cases b; simpa using h

theorem OCTAVE_MICROCENTS_pos : 0 < OCTAVE_MICROCENTS := by decide

/-- In every branch, `multiply` ends with a reduction modulo the octave. -/
theorem PitchClass.multiply_val_lt (p : PitchClass) (k : Int) :
    (p.multiply k).val < OCTAVE_MICROCENTS := by
  unfold PitchClass.multiply
  split <;> exact Nat.mod_lt _ OCTAVE_MICROCENTS_pos

/-- Correctness of `PitchClass::multiply` for every `i32` multiplier except
`i32::MIN`: the result is the mathematical product reduced modulo the
octave. -/
theorem PitchClass.multiply_val (p : PitchClass) (k : Int)
    (hp : p.val < OCTAVE_MICROCENTS) (hk1 : -(2 ^ 31) < k) (hk2 : k < 2 ^ 31) :
    ((p.multiply k).val : Int) = k * (p.val : Int) % (OCTAVE_MICROCENTS : Nat) := by
  unfold PitchClass.multiply
  split
  case isTrue hk =>
    have hlt : k.toNat * p.val < 2 ^ 64 := by
      have h1 : k.toNat < 2 ^ 31 := by omega
      have h2 : p.val < 2 ^ 31 := by
        have : OCTAVE_MICROCENTS < 2 ^ 31 := by decide
        omega
      calc k.toNat * p.val < 2 ^ 31 * 2 ^ 31 := by
            exact Nat.mul_lt_mul_of_lt_of_lt h1 h2
        _ ≤ 2 ^ 64 := by norm_num
    rw [Nat.mod_eq_of_lt hlt]
    push_cast
    rw [Int.toNat_of_nonneg hk]
  case isFalse hk =>
    have hkneg : 0 < -k := by omega
    have hkup : -k < 2 ^ 31 := by omega
    have hwrap : wrapI32 (-k) = -k := by
      unfold wrapI32
      have : (-k + 2 ^ 31) % 2 ^ 32 = -k + 2 ^ 31 :=
        Int.emod_eq_of_lt (by omega) (by omega)
      omega
    have hcast : u64ofI32 (wrapI32 (-k)) = (-k).toNat := by
      rw [hwrap]
      unfold u64ofI32
      rw [Int.emod_eq_of_lt (by omega) (by omega)]
    rw [hcast]
    have hnegval : p.neg.val = OCTAVE_MICROCENTS - p.val := rfl
    have hlt : (-k).toNat * p.neg.val < 2 ^ 64 := by
      rw [hnegval]
      have h1 : (-k).toNat < 2 ^ 31 := by omega
      have h2 : OCTAVE_MICROCENTS - p.val ≤ OCTAVE_MICROCENTS := by omega
      calc (-k).toNat * (OCTAVE_MICROCENTS - p.val)
          ≤ 2 ^ 31 * OCTAVE_MICROCENTS := by
            exact Nat.mul_le_mul (by omega) h2
        _ < 2 ^ 64 := by decide
    rw [Nat.mod_eq_of_lt hlt, hnegval]
    have hsub : ((OCTAVE_MICROCENTS - p.val : Nat) : Int) =
        (OCTAVE_MICROCENTS : Int) - (p.val : Int) := by
      have := le_of_lt hp
      push_cast [Nat.cast_sub this]
      ring
    push_cast [hsub]
    rw [Int.toNat_of_nonneg (by omega)]
    have : (-k) * ((OCTAVE_MICROCENTS : Int) - (p.val : Int)) =
        k * (p.val : Int) + (OCTAVE_MICROCENTS : Int) * (-k) := by ring
    rw [this, Int.add_mul_emod_self_left]

/-! ## Claims C5, C6, C3, C9 -/

/-- C5 counterexample: `negate` applied to the `PitchClass` with value `0`
returns the value `OCTAVE_MICROCENTS` itself, which is not strictly below
one octave, so the claimed `[0, octave)` invariant fails for `negate` at `0`. -/
theorem counter_C5 : (PitchClass.neg ⟨0⟩).val = OCTAVE_MICROCENTS ∧
    ¬ (PitchClass.neg ⟨0⟩).val < OCTAVE_MICROCENTS := by decide

/-- C5 (amended): every `PitchClass` produced by `from_microcents`, `add`,
`subtract`, `multiply`, `round` and `from_midi_note` has a value in
`[0, octave)`, and so does `negate` on every valid input with a nonzero
value; `negate` of the value `0` instead returns exactly one octave
(see `counter_C5`). -/
theorem spec_C5 :
    (∀ m : Nat, (PitchClass.from_microcents m).val < OCTAVE_MICROCENTS) ∧
    (∀ a b : PitchClass, (a.add b).val < OCTAVE_MICROCENTS) ∧
    (∀ a b : PitchClass, (a.sub b).val < OCTAVE_MICROCENTS) ∧
    (∀ (p : PitchClass) (k : Int), (p.multiply k).val < OCTAVE_MICROCENTS) ∧
    (∀ (p : PitchClass) (d : Nat), p.val < OCTAVE_MICROCENTS →
      (p.round d).val < OCTAVE_MICROCENTS) ∧
    (∀ note : Nat, (PitchClass.from_midi_note note).val < OCTAVE_MICROCENTS) ∧
    (∀ a : PitchClass, 0 < a.val → a.val ≤ OCTAVE_MICROCENTS →
      (PitchClass.neg a).val < OCTAVE_MICROCENTS) := by
  refine ⟨?_, ?_, ?_, ?_, ?_, ?_, ?_⟩
  · intro m
    exact Nat.mod_lt _ OCTAVE_MICROCENTS_pos
  · intro a b
    exact Nat.mod_lt _ OCTAVE_MICROCENTS_pos
  · intro a b
    exact Nat.mod_lt _ OCTAVE_MICROCENTS_pos
  · intro p k
    exact PitchClass.multiply_val_lt p k
  · intro p d hp
    unfold PitchClass.round
    split
    · exact hp
    · exact Nat.mod_lt _ OCTAVE_MICROCENTS_pos
  · intro note
    show (note % 12) * 100 * 1000000 < OCTAVE_MICROCENTS
    have : note % 12 < 12 := Nat.mod_lt _ (by omega)
    unfold OCTAVE_MICROCENTS
    omega
  · intro a h0 h1
    show OCTAVE_MICROCENTS - a.val < OCTAVE_MICROCENTS
    omega

/-- Witness for `spec_C5` at concrete inputs. -/
theorem spec_C5_w :
    ((PitchClass.mk 123456789).round 2).val < OCTAVE_MICROCENTS ∧
    (PitchClass.neg ⟨123456789⟩).val < OCTAVE_MICROCENTS :=
  ⟨spec_C5.2.2.2.2.1 ⟨123456789⟩ 2 (by decide),
   spec_C5.2.2.2.2.2.2 ⟨123456789⟩ (by decide) (by decide)⟩

/-- C6 counterexample: at the extreme multiplier `i32::MIN = -2^31` the `i32`
negation in `multiply` wraps, the sign-extending cast produces
`2^64 - 2^31`, and the `u64` product wraps modulo `2^64`; the result
`1057035264` differs from the mathematical product reduced modulo the
octave, which is `252516352`. -/
theorem counter_C6 :
    (PitchClass.mk 1).multiply (-(2 ^ 31)) = ⟨1057035264⟩ ∧
    ((-(2 ^ 31) * ((1 : Nat) : Int)) % (OCTAVE_MICROCENTS : Nat)).toNat = 252516352 ∧
    (1057035264 : Nat) ≠ 252516352 := by decide

/-- C6 (amended): for every valid `PitchClass` `p` and every `i32` multiplier
except `i32::MIN`, `multiply` returns the mathematical product reduced
modulo the octave, computed without overflow; consequently
`p.multiply(m).multiply(n) = p.multiply(m*n)` whenever `m`, `n` and `m*n`
all lie in the `i32` range and none of them is `i32::MIN`. -/
theorem spec_C6 :
    (∀ (p : PitchClass) (k : Int), p.val < OCTAVE_MICROCENTS →
      -(2 ^ 31) < k → k < 2 ^ 31 →
      ((p.multiply k).val : Int) = k * (p.val : Int) % (OCTAVE_MICROCENTS : Nat)) ∧
    (∀ (p : PitchClass) (m n : Int), p.val < OCTAVE_MICROCENTS →
      -(2 ^ 31) < m → m < 2 ^ 31 → -(2 ^ 31) < n → n < 2 ^ 31 →
      -(2 ^ 31) < m * n → m * n < 2 ^ 31 →
      (p.multiply m).multiply n = p.multiply (m * n)) := by
  constructor
  · exact PitchClass.multiply_val
  · intro p m n hp hm1 hm2 hn1 hn2 hmn1 hmn2
    apply PitchClass.val_inj
    have h1 : ((p.multiply m).val : Int) = m * (p.val : Int) % (OCTAVE_MICROCENTS : Nat) :=
      PitchClass.multiply_val p m hp hm1 hm2
    have h2 : (((p.multiply m).multiply n).val : Int) =
        n * ((p.multiply m).val : Int) % (OCTAVE_MICROCENTS : Nat) :=
      PitchClass.multiply_val (p.multiply m) n (PitchClass.multiply_val_lt p m) hn1 hn2
    have h3 : ((p.multiply (m * n)).val : Int) =
        (m * n) * (p.val : Int) % (OCTAVE_MICROCENTS : Nat) :=
      PitchClass.multiply_val p (m * n) hp hmn1 hmn2
    have : (((p.multiply m).multiply n).val : Int) = ((p.multiply (m * n)).val : Int) := by
      rw [h2, h1, h3, Int.mul_emod n, Int.emod_emod_of_dvd _ (dvd_refl _),
        ← Int.mul_emod n, ← mul_assoc, mul_comm n m]
    exact_mod_cast this

/-- Witness for `spec_C6` at concrete inputs. -/
theorem spec_C6_w :
    ((PitchClass.mk 700000000).multiply (-3)).multiply 5 =
      (PitchClass.mk 700000000).multiply (-15) :=
  spec_C6.2 ⟨700000000⟩ (-3) 5 (by decide) (by decide) (by decide) (by decide)
    (by decide) (by decide) (by decide)

/-- C3: the lattice mapping in the code does not add the reference offset.
At the origin vector `(0,0,0)` with any tunings the code returns pitch class
`0`, while the spec's formula with a reference offset of `100_000_000`
microcents returns `100_000_000` — the reference-offset term claimed by the
spec is missing from the computation (the `c_offset` parameter is written by
the tuning learner but never read by any pitch-class computation). -/
theorem bug_C3 :
    PrimeCountVector.pitch_class ⟨0, 0, 0⟩ ⟨700000000⟩ ⟨400000000⟩ ⟨1000000000⟩ = ⟨0⟩ ∧
    pitch_class_with_reference_offset ⟨0, 0, 0⟩ ⟨700000000⟩ ⟨400000000⟩ ⟨1000000000⟩
      ⟨100000000⟩ = ⟨100000000⟩ ∧
    (PitchClass.mk 0) ≠ ⟨100000000⟩ := by decide

/-- C9 counterexample: with the three-generator tuned to `1` microcent and
two vectors whose `threes` components are both `-2^30`, the componentwise sum
has `threes = -2^31 = i32::MIN`, where `multiply` wraps (see `counter_C6`);
the homomorphism equation fails there. -/
theorem counter_C9 :
    PrimeCountVector.pitch_class
      (PrimeCountVector.vadd ⟨-(2 ^ 30), 0, 0⟩ ⟨-(2 ^ 30), 0, 0⟩) ⟨1⟩ ⟨0⟩ ⟨0⟩ =
      ⟨1057035264⟩ ∧
    (PrimeCountVector.pitch_class ⟨-(2 ^ 30), 0, 0⟩ ⟨1⟩ ⟨0⟩ ⟨0⟩).add
      (PrimeCountVector.pitch_class ⟨-(2 ^ 30), 0, 0⟩ ⟨1⟩ ⟨0⟩ ⟨0⟩) = ⟨252516352⟩ ∧
    (PitchClass.mk 1057035264) ≠ ⟨252516352⟩ := by decide

/-- Helper: an `Int` in the `i32` range and different from `i32::MIN`. -/
def i32safe (x : Int) : Prop := -(2 ^ 31) < x ∧ x < 2 ^ 31

instance (x : Int) : Decidable (i32safe x) := by
  unfold i32safe
  infer_instance

/-- Helper: folding three modular reductions of a sum. -/
theorem int_mod3 (x y z O : Int) :
    ((x % O + y % O) % O + z % O) % O = (x + y + z) % O := by
  conv_rhs => rw [Int.add_emod (x + y) z, Int.add_emod x y]

/-- Helper: the shape of the lattice-mapping additivity equation after the
three `multiply` calls have been replaced by reduced products. -/
theorem int_mod_hom (x1 x2 y1 y2 z1 z2 O : Int) :
    (((x1 + x2) % O + (y1 + y2) % O) % O + (z1 + z2) % O) % O =
      ((((x1 % O + y1 % O) % O + z1 % O) % O) +
        (((x2 % O + y2 % O) % O + z2 % O) % O)) % O := by
  conv_lhs => rw [int_mod3 (x1 + x2) (y1 + y2) (z1 + z2) O]
  conv_rhs => rw [int_mod3 x1 y1 z1 O, int_mod3 x2 y2 z2 O, ← Int.add_emod]
  congr 1
  ring

/-- C9 (amended): the lattice mapping is additive,
`pitch_class(v1 + v2) = pitch_class(v1) + pitch_class(v2)`, for all valid
generator tunings and all vectors whose components and componentwise sums lie
in the `i32` range and avoid `i32::MIN` (at `i32::MIN` the underlying
`multiply` wraps, see `counter_C9`). -/
theorem spec_C9 (v1 v2 : PrimeCountVector) (t3 t5 t7 : PitchClass)
    (h3 : t3.val < OCTAVE_MICROCENTS) (h5 : t5.val < OCTAVE_MICROCENTS)
    (h7 : t7.val < OCTAVE_MICROCENTS)
    (hv1 : i32safe v1.threes ∧ i32safe v1.fives ∧ i32safe v1.sevens)
    (hv2 : i32safe v2.threes ∧ i32safe v2.fives ∧ i32safe v2.sevens)
    (hsum : i32safe (v1.threes + v2.threes) ∧ i32safe (v1.fives + v2.fives) ∧
      i32safe (v1.sevens + v2.sevens)) :
    PrimeCountVector.pitch_class (v1.vadd v2) t3 t5 t7 =
      (v1.pitch_class t3 t5 t7).add (v2.pitch_class t3 t5 t7) := by
  obtain ⟨⟨ha1l, ha1u⟩, ⟨hb1l, hb1u⟩, ⟨hc1l, hc1u⟩⟩ := hv1
  obtain ⟨⟨ha2l, ha2u⟩, ⟨hb2l, hb2u⟩, ⟨hc2l, hc2u⟩⟩ := hv2
  obtain ⟨⟨hsal, hsau⟩, ⟨hsbl, hsbu⟩, ⟨hscl, hscu⟩⟩ := hsum
  have e1 := PitchClass.multiply_val t3 v1.threes h3 ha1l ha1u
  have e2 := PitchClass.multiply_val t5 v1.fives h5 hb1l hb1u
  have e3 := PitchClass.multiply_val t7 v1.sevens h7 hc1l hc1u
  have e4 := PitchClass.multiply_val t3 v2.threes h3 ha2l ha2u
  have e5 := PitchClass.multiply_val t5 v2.fives h5 hb2l hb2u
  have e6 := PitchClass.multiply_val t7 v2.sevens h7 hc2l hc2u
  have s1 := PitchClass.multiply_val t3 (v1.threes + v2.threes) h3 hsal hsau
  have s2 := PitchClass.multiply_val t5 (v1.fives + v2.fives) h5 hsbl hsbu
  have s3 := PitchClass.multiply_val t7 (v1.sevens + v2.sevens) h7 hscl hscu
  apply PitchClass.val_inj
  have goalInt : (((v1.vadd v2).pitch_class t3 t5 t7).val : Int) =
      (((v1.pitch_class t3 t5 t7).add (v2.pitch_class t3 t5 t7)).val : Int) := by
    simp only [PrimeCountVector.pitch_class, PrimeCountVector.vadd, PitchClass.add]
    push_cast
    rw [s1, s2, s3, e1, e2, e3, e4, e5, e6]
    simp only [add_mul]
    exact int_mod_hom _ _ _ _ _ _ _
  exact_mod_cast goalInt

/-- Witness for `spec_C9` at concrete inputs. -/
theorem spec_C9_w :
    PrimeCountVector.pitch_class (PrimeCountVector.vadd ⟨1, -2, 3⟩ ⟨4, 5, -6⟩)
      ⟨701955001⟩ ⟨386313714⟩ ⟨968825906⟩ =
    (PrimeCountVector.pitch_class ⟨1, -2, 3⟩ ⟨701955001⟩ ⟨386313714⟩ ⟨968825906⟩).add
      (PrimeCountVector.pitch_class ⟨4, 5, -6⟩ ⟨701955001⟩ ⟨386313714⟩ ⟨968825906⟩) :=
  spec_C9 ⟨1, -2, 3⟩ ⟨4, 5, -6⟩ ⟨701955001⟩ ⟨386313714⟩ ⟨968825906⟩
    (by decide) (by decide) (by decide)
    (by decide) (by decide) (by decide)

/-! ## TuningLearner reference-pitch detection (src/editor/tuning_learn_button.rs) -/

/-- Constant `DEFAULT_C` (src/editor/tuning_learn_button.rs line 125). -/
def DEFAULT_C : PitchClass := PitchClass.from_microcents 0

/-- Constant `TUNE_C_TOLERANCE` (src/editor/tuning_learn_button.rs line 126):
50 cents. -/
def TUNE_C_TOLERANCE : PitchClassDistance :=
  PitchClassDistance.from_microcents (50 * 1000000)

/-- Loop body of `learn_c_tuning` (src/editor/tuning_learn_button.rs
lines 152-165): comparison of `PitchClassDistance` values is comparison of
their `u32` payloads (derived `Ord`). -/
def learn_c_step (best : Option PitchClass) (pc : PitchClass) : Option PitchClass :=
  if (pc.distance_to DEFAULT_C).val ≤ TUNE_C_TOLERANCE.val then
    match best with
    | none => some pc
    | some c =>
      some (if (c.distance_to DEFAULT_C).val < (pc.distance_to DEFAULT_C).val then c
        else pc)
  else best

/-- Rust `learn_c_tuning` (src/editor/tuning_learn_button.rs line 149) up to
the computation of `best_c`; the subsequent `best_c.map(...)` emits a
parameter update exactly when this value is `some`. -/
def learn_c_best (sorted_pitch_classes : List PitchClass) : Option PitchClass :=
  sorted_pitch_classes.foldl learn_c_step none

/-- Modelled from the spec: the claim's reference-pitch detection selects,
among all sounding pitch classes, the one closest to the CURRENT reference
pitch class `ref` (not the fixed default `C`), accepting it only within the
fixed capture window. -/
def learn_c_claimed (ref : PitchClass) (pcs : List PitchClass) : Option PitchClass :=
  pcs.foldl (fun best pc =>
    if (pc.distance_to ref).val ≤ TUNE_C_TOLERANCE.val then
      match best with
      | none => some pc
      | some c =>
        some (if (c.distance_to ref).val < (pc.distance_to ref).val then c else pc)
    else best) none

/-- C4 counterexample: with the current reference pitch class at 55 cents and
a single sounding pitch class at exactly 55 cents (distance 0 from the current
reference, well within the capture window), the claim says the candidate is
accepted, but the code compares against the fixed `DEFAULT_C = 0` and finds
55 cents > 50 cents, so no update is emitted. -/
theorem counter_C4 :
    learn_c_claimed ⟨55000000⟩ [⟨55000000⟩] = some ⟨55000000⟩ ∧
    learn_c_best [⟨55000000⟩] = none := by decide


/-- Helper: `learn_c_step` on a non-qualifying pitch class is the identity. -/
theorem learn_c_step_skip (acc : Option PitchClass) (pc : PitchClass)
    (h : ¬ (pc.distance_to DEFAULT_C).val ≤ TUNE_C_TOLERANCE.val) :
    learn_c_step acc pc = acc := by
  unfold learn_c_step
  rw [if_neg h]

/-- Helper: `learn_c_step` on a qualifying pitch class with empty accumulator. -/
theorem learn_c_step_first (pc : PitchClass)
    (h : (pc.distance_to DEFAULT_C).val ≤ TUNE_C_TOLERANCE.val) :
    learn_c_step none pc = some pc := by
  unfold learn_c_step
  rw [if_pos h]

/-- Helper: `learn_c_step` keeps the incumbent when it is strictly closer. -/
theorem learn_c_step_keep (c0 pc : PitchClass)
    (h : (pc.distance_to DEFAULT_C).val ≤ TUNE_C_TOLERANCE.val)
    (hlt : (c0.distance_to DEFAULT_C).val < (pc.distance_to DEFAULT_C).val) :
    learn_c_step (some c0) pc = some c0 := by
  unfold learn_c_step
  rw [if_pos h]
  simp [if_pos hlt]

/-- Helper: `learn_c_step` takes the new candidate otherwise. -/
theorem learn_c_step_take (c0 pc : PitchClass)
    (h : (pc.distance_to DEFAULT_C).val ≤ TUNE_C_TOLERANCE.val)
    (hlt : ¬ (c0.distance_to DEFAULT_C).val < (pc.distance_to DEFAULT_C).val) :
    learn_c_step (some c0) pc = some pc := by
  unfold learn_c_step
  rw [if_pos h]
  simp [if_neg hlt]

/-- Helper: complete characterization of the `learn_c_tuning` fold, with a
generalized accumulator. -/
theorem learn_c_fold (pcs : List PitchClass) :
    ∀ acc : Option PitchClass,
      (∀ b, acc = some b → (b.distance_to DEFAULT_C).val ≤ TUNE_C_TOLERANCE.val) →
      ((pcs.foldl learn_c_step acc = none ↔
          (acc = none ∧
            ∀ pc ∈ pcs, TUNE_C_TOLERANCE.val < (pc.distance_to DEFAULT_C).val)) ∧
        (∀ c, pcs.foldl learn_c_step acc = some c →
          (acc = some c ∨ (c ∈ pcs ∧
              (c.distance_to DEFAULT_C).val ≤ TUNE_C_TOLERANCE.val)) ∧
          (∀ b, acc = some b →
            (c.distance_to DEFAULT_C).val ≤ (b.distance_to DEFAULT_C).val) ∧
          (∀ pc ∈ pcs, (pc.distance_to DEFAULT_C).val ≤ TUNE_C_TOLERANCE.val →
            (c.distance_to DEFAULT_C).val ≤ (pc.distance_to DEFAULT_C).val))) := by
  induction pcs with
  | nil =>
    intro acc hacc
    constructor
    · simp
    · intro c hc
      simp only [List.foldl_nil] at hc
      refine ⟨Or.inl hc, ?_, by simp⟩
      intro b hb
      rw [hb] at hc
      cases hc
      exact le_refl _
  | cons pc rest ih =>
    intro acc hacc
    by_cases hq : (pc.distance_to DEFAULT_C).val ≤ TUNE_C_TOLERANCE.val
    · cases acc with
      | none =>
        rw [List.foldl_cons, learn_c_step_first pc hq]
        obtain ⟨ihNone, ihSome⟩ := ih (some pc) (by
          intro b hb
          cases hb
          exact hq)
        constructor
        · rw [ihNone]
          constructor
          · rintro ⟨h1, -⟩
            cases h1
          · rintro ⟨-, hall⟩
            have := hall pc (List.mem_cons_self pc rest)
            omega
        · intro c hc
          obtain ⟨hsrc, hle, hmin⟩ := ihSome c hc
          refine ⟨?_, ?_, ?_⟩
          · rcases hsrc with h | h
            · cases h
              exact Or.inr ⟨List.mem_cons_self pc rest, hq⟩
            · exact Or.inr ⟨List.mem_cons_of_mem pc h.1, h.2⟩
          · intro b hb
            cases hb
          · intro x hx hxq
            rcases List.mem_cons.mp hx with h | h
            · rw [h]
              exact hle pc rfl
            · exact hmin x h hxq
      | some c0 =>
        have hc0 : (c0.distance_to DEFAULT_C).val ≤ TUNE_C_TOLERANCE.val := hacc c0 rfl
        by_cases hlt : (c0.distance_to DEFAULT_C).val < (pc.distance_to DEFAULT_C).val
        · rw [List.foldl_cons, learn_c_step_keep c0 pc hq hlt]
          obtain ⟨ihNone, ihSome⟩ := ih (some c0) (by
            intro b hb
            cases hb
            exact hc0)
          constructor
          · rw [ihNone]
            constructor
            · rintro ⟨h1, -⟩
              cases h1
            · rintro ⟨-, hall⟩
              have := hall pc (List.mem_cons_self pc rest)
              omega
          · intro c hc
            obtain ⟨hsrc, hle, hmin⟩ := ihSome c hc
            refine ⟨?_, hle, ?_⟩
            · rcases hsrc with h | h
              · exact Or.inl h
              · exact Or.inr ⟨List.mem_cons_of_mem pc h.1, h.2⟩
            · intro x hx hxq
              rcases List.mem_cons.mp hx with h | h
              · rw [h]
                have := hle c0 rfl
                omega
              · exact hmin x h hxq
        · rw [List.foldl_cons, learn_c_step_take c0 pc hq hlt]
          obtain ⟨ihNone, ihSome⟩ := ih (some pc) (by
            intro b hb
            cases hb
            exact hq)
          constructor
          · rw [ihNone]
            constructor
            · rintro ⟨h1, -⟩
              cases h1
            · rintro ⟨-, hall⟩
              have := hall pc (List.mem_cons_self pc rest)
              omega
          · intro c hc
            obtain ⟨hsrc, hle, hmin⟩ := ihSome c hc
            refine ⟨?_, ?_, ?_⟩
            · rcases hsrc with h | h
              · cases h
                exact Or.inr ⟨List.mem_cons_self pc rest, hq⟩
              · exact Or.inr ⟨List.mem_cons_of_mem pc h.1, h.2⟩
            · intro b hb
              cases hb
              have := hle pc rfl
              omega
            · intro x hx hxq
              rcases List.mem_cons.mp hx with h | h
              · rw [h]
                exact hle pc rfl
              · exact hmin x h hxq
    · rw [List.foldl_cons, learn_c_step_skip acc pc hq]
      obtain ⟨ihNone, ihSome⟩ := ih acc hacc
      constructor
      · rw [ihNone]
        constructor
        · rintro ⟨h1, h2⟩
          refine ⟨h1, ?_⟩
          intro x hx
          rcases List.mem_cons.mp hx with h | h
          · rw [h]
            omega
          · exact h2 x h
        · rintro ⟨h1, h2⟩
          exact ⟨h1, fun x hx => h2 x (List.mem_cons_of_mem pc hx)⟩
      · intro c hc
        obtain ⟨hsrc, hle, hmin⟩ := ihSome c hc
        refine ⟨?_, hle, ?_⟩
        · rcases hsrc with h | h
          · exact Or.inl h
          · exact Or.inr ⟨List.mem_cons_of_mem pc h.1, h.2⟩
        · intro x hx hxq
          rcases List.mem_cons.mp hx with h | h
          · rw [h] at hxq
            omega
          · exact hmin x h hxq

/-- C4 (amended): the reference-pitch detection selects, among the sounding
pitch classes, one closest to the fixed default reference pitch class
`DEFAULT_C = 0` (not the current reference offset), accepting a candidate only
within the fixed 50-cent capture window; when no sounding pitch class lies
within the window the result is `none` and no parameter update is emitted. -/
theorem spec_C4 (pcs : List PitchClass) :
    (learn_c_best pcs = none ↔
      ∀ pc ∈ pcs, TUNE_C_TOLERANCE.val < (pc.distance_to DEFAULT_C).val) ∧
    (∀ c, learn_c_best pcs = some c →
      c ∈ pcs ∧ (c.distance_to DEFAULT_C).val ≤ TUNE_C_TOLERANCE.val ∧
      ∀ pc ∈ pcs, (pc.distance_to DEFAULT_C).val ≤ TUNE_C_TOLERANCE.val →
        (c.distance_to DEFAULT_C).val ≤ (pc.distance_to DEFAULT_C).val) := by
  obtain ⟨h1, h2⟩ := learn_c_fold pcs none (by intro b hb; cases hb)
  constructor
  · unfold learn_c_best
    rw [h1]
    simp
  · intro c hc
    obtain ⟨hsrc, -, hmin⟩ := h2 c hc
    rcases hsrc with h | h
    · cases h
    · exact ⟨h.1, h.2, hmin⟩

/-- Witness for `spec_C4` at a concrete input: a single sounding pitch class
200 cents away from `C` is outside the 50-cent capture window, so no update is
emitted. -/
theorem spec_C4_w : learn_c_best [⟨200000000⟩] = none :=
  (spec_C4 [⟨200000000⟩]).1.mpr (by decide)

/-! ## Voice registry (src/midi.rs, src/lib.rs) -/

/-- Type `VoiceKey` (src/midi.rs line 96): channel in `0..16`, note in
`0..128`. -/
structure VoiceKey where
  channel : Nat
  note : Nat
deriving DecidableEq

/-- Type `MidiVoice` (src/midi.rs line 14).  The `f32` fields (`pitch`, and
the tuning offsets fed to `set_tuning`) are modelled as exact rationals: the
claims proved below never depend on `f32` rounding, and on the note-on path
the stored `pitch = note as f32` is exact. -/
structure MidiVoice where
  voice_id : Option Int
  channel : Nat
  note : Nat
  pitch : ℚ
  pitch_class : PitchClass
deriving DecidableEq

/-- Rust `MidiVoice::from_midi_data` (src/midi.rs line 56). -/
def MidiVoice.from_midi_data (voice_id : Option Int) (channel note : Nat) : MidiVoice :=
  ⟨voice_id, channel, note, (note : ℚ), PitchClass.from_midi_note note⟩

/-- Rounding of a nonnegative rational to the nearest natural number, halves
away from zero: the exact model of the `f32::round` used on the (nonnegative)
microcent value in `from_midi_note_offset_f32`. -/
def ratRoundToNat (q : ℚ) : Nat := (Int.floor (q + 1 / 2)).toNat

/-- Rust `PitchClass::from_midi_note_offset_f32` (src/tuning.rs line 100),
with the `f32` arithmetic modelled exactly on rationals:
`(offset.rem_euclid(12.0) * 100 * 1_000_000).round() as u32`. -/
def PitchClass.from_midi_note_offset (offset : ℚ) : PitchClass :=
  ⟨ratRoundToNat ((offset - 12 * Int.floor (offset / 12)) * 100 * 1000000)⟩

/-- Rust `MidiVoice::set_tuning` (src/midi.rs line 66), `f32` arithmetic
modelled exactly on rationals. -/
def MidiVoice.set_tuning (v : MidiVoice) (tuning_offset : ℚ) : MidiVoice :=
  { v with
    pitch := (v.note : ℚ) + tuning_offset,
    pitch_class :=
      (PitchClass.from_midi_note v.note).add
        (PitchClass.from_midi_note_offset tuning_offset) }

/-- Capacity of the registry: `type Voices = FnvIndexMap<VoiceKey, MidiVoice, 256>`
(src/lib.rs line 19). -/
def VOICES_CAPACITY : Nat := 256

/-- Type `Voices` (src/lib.rs line 19), a `heapless::FnvIndexMap` with
capacity 256, modelled by its observable map behavior as an insertion-ordered
association list with at most one entry per key. -/
abbrev Voices : Type := List (VoiceKey × MidiVoice)

/-- Lookup in the registry (the `heapless::IndexMap` lookup: the value of the
first — and, under the registry invariant, only — entry with the key). -/
def Voices.find? (m : Voices) (k : VoiceKey) : Option MidiVoice :=
  match m with
  | [] => none
  | (k0, v0) :: rest => if k0 = k then some v0 else Voices.find? rest k

/-- Rust `heapless::IndexMap::insert`, by its documented contract: if an equal
key exists, the entry keeps its place and its value is replaced, returning
`some old`; otherwise, if the map is full the insertion fails (`none` models
`Err`, the pair is rejected); otherwise the new entry is appended last and
`some (m', none)` is returned. -/
def Voices.insert (m : Voices) (k : VoiceKey) (v : MidiVoice) :
    Option (Voices × Option MidiVoice) :=
  match m.find? k with
  | some old => some (m.map (fun kv => if kv.1 = k then (k, v) else kv), some old)
  | none =>
    if m.length < VOICES_CAPACITY then some (m ++ [(k, v)], none)
    else none

/-- Rust `heapless::IndexMap::remove`, by its observable map behavior
(heapless swap-removes, which perturbs iteration order; no claim below
depends on iteration order after a removal). -/
def Voices.remove (m : Voices) (k : VoiceKey) : Voices × Option MidiVoice :=
  (m.filter (fun kv => kv.1 ≠ k), m.find? k)

/-- Events consumed by `update_midi_voices` (src/midi.rs line 148): the
`NoteEvent` variants it matches on, with `f32` payloads as rationals; all
other variants are collapsed into `otherEvent` (the `_ => {}` arm). -/
inductive MidiNoteEvent where
  | noteOn (voice_id : Option Int) (channel note : Nat) (velocity : ℚ)
  | noteOff (voice_id : Option Int) (channel note : Nat) (velocity : ℚ)
  | polyTuning (voice_id : Option Int) (channel note : Nat) (tuning : ℚ)
  | otherEvent

/-- Error conditions reported by `update_midi_voices` to the diagnostics sink
(the `nih_error!`/`nih_log!` calls), named after the spec's taxonomy:
`duplicateVoice` for "Received note on for existing voice", `registryFull`
for "Too many voices", `unknownVoice` for the two "nonexisting voice"
messages. -/
inductive MidiReport where
  | duplicateVoice
  | registryFull
  | unknownVoice
deriving DecidableEq

/-- Rust `update_midi_voices` (src/midi.rs line 148).  Returns the updated
registry together with the report (if any) emitted for this event. -/
def update_midi_voices (voices : Voices) (event : MidiNoteEvent) :
    Voices × Option MidiReport :=
  match event with
  | .noteOn voice_id channel note _velocity =>
    match Voices.insert voices ⟨channel, note⟩
        (MidiVoice.from_midi_data voice_id channel note) with
    | some (m, some _) => (m, some .duplicateVoice)
    | some (m, none) => (m, none)
    | none => (voices, some .registryFull)
  | .noteOff _ channel note _ =>
    match Voices.remove voices ⟨channel, note⟩ with
    | (m, none) => (m, some .unknownVoice)
    | (m, some _) => (m, none)
  | .polyTuning _ channel note tuning =>
    match Voices.find? voices ⟨channel, note⟩ with
    | none => (voices, some .unknownVoice)
    | some v =>
      (voices.map (fun kv =>
        if kv.1 = (⟨channel, note⟩ : VoiceKey) then (kv.1, v.set_tuning tuning) else kv),
        none)
  | .otherEvent => (voices, none)

/-! ## Claims C1 and C7 -/

/-- Helper: replacing a key's value makes the lookup at that key return the
new value, provided the key is present. -/
theorem Voices.find_replace_self (m : Voices) (k : VoiceKey) (v v0 : MidiVoice)
    (h : m.find? k = some v0) :
    Voices.find? (m.map (fun kv => if kv.1 = k then (k, v) else kv)) k = some v := by
  induction m with
  | nil => cases h
  | cons kv rest ih =>
    obtain ⟨k0, w0⟩ := kv
    simp only [Voices.find?] at h
    simp only [List.map_cons]
    by_cases hk : k0 = k
    · subst hk
      rw [if_pos rfl]
      simp [Voices.find?]
    · rw [if_neg hk] at h
      rw [if_neg hk]
      simp only [Voices.find?]
      rw [if_neg hk]
      exact ih h

/-- Helper: replacing a key's value leaves lookups at every other key
unchanged. -/
theorem Voices.find_replace_other (m : Voices) (k : VoiceKey) (v : MidiVoice)
    (k' : VoiceKey) (h : k' ≠ k) :
    Voices.find? (m.map (fun kv => if kv.1 = k then (k, v) else kv)) k' =
      m.find? k' := by
  induction m with
  | nil => rfl
  | cons kv rest ih =>
    obtain ⟨k0, w0⟩ := kv
    simp only [List.map_cons]
    by_cases hk : k0 = k
    · subst hk
      rw [if_pos rfl]
      simp only [Voices.find?]
      have hkv : ¬ k0 = k' := fun hc => h hc.symm
      rw [if_neg hkv, if_neg hkv]
      exact ih
    · rw [if_neg hk]
      simp only [Voices.find?]
      by_cases hkk : k0 = k'
      · rw [if_pos hkk, if_pos hkk]
      · rw [if_neg hkk, if_neg hkk]
        exact ih

/-- A one-entry registry holding a voice with `voice_id = some 7` for the key
`(channel 0, note 60)`. -/
def oneVoiceRegistry : Voices :=
  [((⟨0, 60⟩ : VoiceKey), MidiVoice.from_midi_data (some 7) 0 60)]

/-- C1 counterexample: a duplicate note-on overwrites the stored voice.  The
registry holds a voice with `voice_id = some 7` for key `(0, 60)`; after a
note-on for the same key with `voice_id = none`, the registry maps the key to
the voice built from the new event, not to the previously existing voice. -/
theorem counter_C1 :
    (update_midi_voices oneVoiceRegistry (.noteOn none 0 60 0)).1.find? ⟨0, 60⟩ =
      some (MidiVoice.from_midi_data none 0 60) ∧
    MidiVoice.from_midi_data none 0 60 ≠ MidiVoice.from_midi_data (some 7) 0 60 := by
  decide

/-- C1 (amended): a note-on whose key is already present is reported as the
duplicate-voice condition and every other entry and the registry size are
unchanged, but the insertion is not refused: the registry afterwards maps the
key to the voice built from the duplicate event (the previously existing
voice is returned from the map and discarded). -/
theorem spec_C1 (voices : Voices) (id : Option Int) (ch nt : Nat) (vel : ℚ)
    (v0 : MidiVoice) (h : voices.find? ⟨ch, nt⟩ = some v0) :
    (update_midi_voices voices (.noteOn id ch nt vel)).2 = some .duplicateVoice ∧
    (update_midi_voices voices (.noteOn id ch nt vel)).1.find? ⟨ch, nt⟩ =
      some (MidiVoice.from_midi_data id ch nt) ∧
    (∀ k, k ≠ (⟨ch, nt⟩ : VoiceKey) →
      (update_midi_voices voices (.noteOn id ch nt vel)).1.find? k =
        voices.find? k) ∧
    (update_midi_voices voices (.noteOn id ch nt vel)).1.length = voices.length := by
  have hupd : update_midi_voices voices (.noteOn id ch nt vel) =
      (voices.map (fun kv =>
        if kv.1 = (⟨ch, nt⟩ : VoiceKey)
        then ((⟨ch, nt⟩ : VoiceKey), MidiVoice.from_midi_data id ch nt) else kv),
        some .duplicateVoice) := by
    simp only [update_midi_voices, Voices.insert, h]
  rw [hupd]
  refine ⟨rfl, ?_, ?_, ?_⟩
  · exact Voices.find_replace_self voices _ _ v0 h
  · intro k hk
    exact Voices.find_replace_other voices _ _ k hk
  · exact List.length_map voices _

/-- Witness for `spec_C1` at a concrete one-entry registry. -/
theorem spec_C1_w :
    (update_midi_voices oneVoiceRegistry (.noteOn none 0 60 0)).2 =
      some .duplicateVoice ∧
    (update_midi_voices oneVoiceRegistry (.noteOn none 0 60 0)).1.find? ⟨0, 60⟩ =
      some (MidiVoice.from_midi_data none 0 60) ∧
    (∀ k, k ≠ (⟨0, 60⟩ : VoiceKey) →
      (update_midi_voices oneVoiceRegistry (.noteOn none 0 60 0)).1.find? k =
        oneVoiceRegistry.find? k) ∧
    (update_midi_voices oneVoiceRegistry (.noteOn none 0 60 0)).1.length =
      oneVoiceRegistry.length :=
  spec_C1 oneVoiceRegistry none 0 60 0
    (MidiVoice.from_midi_data (some 7) 0 60) (by decide)

/-- C7: once the registry holds `VOICES_CAPACITY = 256` voices, a note-on for
a key not in the registry fails closed: the registry is returned unchanged
(so its size stays at capacity and every entry is untouched, with no
resizing or reallocation — the model's capacity bound is fixed) and the event
is reported as the registry-full condition. -/
theorem spec_C7 (voices : Voices) (id : Option Int) (ch nt : Nat) (vel : ℚ)
    (hlen : voices.length = VOICES_CAPACITY)
    (habs : voices.find? ⟨ch, nt⟩ = none) :
    update_midi_voices voices (.noteOn id ch nt vel) =
      (voices, some .registryFull) := by
  simp only [update_midi_voices, Voices.insert, habs, hlen, lt_self_iff_false,
    if_false]

/-- A registry filled with 256 voices on distinct keys (channels `0..16`,
notes `0..16`). -/
def fullRegistry : Voices :=
  (List.range 256).map (fun i =>
    ((⟨i % 16, i / 16⟩ : VoiceKey), MidiVoice.from_midi_data none (i % 16) (i / 16)))

set_option maxRecDepth 4000 in
/-- Witness for `spec_C7`: the full registry rejects a note-on for the fresh
key `(0, 100)` and reports the registry-full condition. -/
theorem spec_C7_w :
    update_midi_voices fullRegistry (.noteOn none 0 100 0) =
      (fullRegistry, some .registryFull) :=
  spec_C7 fullRegistry none 0 100 0 (by decide) (by decide)

/-! ## Voice matcher (src/editor/lattice/grid.rs) -/

/-- Type `Voice` (src/editor/lattice/grid.rs line 51): the display-side
simplification of `MidiVoice`. -/
structure Voice where
  channel : Nat
  pitch_class : PitchClass
deriving DecidableEq

/-- Rust slice `partition_point`, by its documented contract: for a slice
partitioned with respect to the predicate (all `true` elements before all
`false` ones — the case in every use in this program, where the predicate is
monotone on a list sorted by pitch class), it returns the index of the first
element of the second partition, i.e. the length of the leading run of `true`
elements. -/
def partitionPoint (p : Voice → Bool) (l : List Voice) : Nat :=
  (l.takeWhile p).length

/-- Index stepping of the forward loop in `get_matching_voices`
(src/editor/lattice/grid.rs lines 1191-1195). -/
def stepFwd (n idx : Nat) : Nat := if idx = n - 1 then 0 else idx + 1

/-- Index stepping of the backward loop in `get_matching_voices`
(src/editor/lattice/grid.rs lines 1204-1208). -/
def stepBwd (n idx : Nat) : Nat := if idx = 0 then n - 1 else idx - 1

/-- Forward circular scan of `get_matching_voices`
(src/editor/lattice/grid.rs lines 1182-1199): starting at `idx`, collects
voices while the distance to the target is within tolerance; stops with flag
`false` at the first non-match (the `break`, after which the backward loop
runs) and with flag `true` when the next index would be the start index again
(the early `return matching_voices`).  The extra fuel argument makes the
unbounded `loop` structurally recursive; `none` models fuel exhaustion (or an
out-of-bounds index) and is proved unreachable for fuel `n + 1`. -/
def forwardScan (vs : List Voice) (pc : PitchClass) (tol : PitchClassDistance)
    (startIdx : Nat) : Nat → Nat → Option (List Voice × Bool)
  | 0, _ => none
  | fuel + 1, idx =>
    match vs[idx]? with
    | none => none
    | some v =>
      if tol.val < (v.pitch_class.distance_to pc).val then some ([], false)
      else if stepFwd vs.length idx = startIdx then some ([v], true)
      else
        match forwardScan vs pc tol startIdx fuel (stepFwd vs.length idx) with
        | none => none
        | some (l, b) => some (v :: l, b)

/-- Backward circular scan of `get_matching_voices`
(src/editor/lattice/grid.rs lines 1202-1217): first decrements the index
(wrapping), then stops at the first non-match, collecting matches on the way.
Fuel as in `forwardScan`. -/
def backwardScan (vs : List Voice) (pc : PitchClass) (tol : PitchClassDistance) :
    Nat → Nat → Option (List Voice)
  | 0, _ => none
  | fuel + 1, idx =>
    match vs[stepBwd vs.length idx]? with
    | none => none
    | some v =>
      if tol.val < (v.pitch_class.distance_to pc).val then some []
      else
        match backwardScan vs pc tol fuel (stepBwd vs.length idx) with
        | none => none
        | some l => some (v :: l)

/-- Start index of the scans (src/editor/lattice/grid.rs lines 1170-1176):
the partition point for `pitch class < target - tolerance` (comparison of the
`u32` payloads, wraparound subtraction), wrapped to `0` when it is past the
end. -/
def matchStart (pc : PitchClass) (sorted_voices : List Voice)
    (tol : PitchClassDistance) : Nat :=
  let s0 := partitionPoint
    (fun v => decide (v.pitch_class.val < (pc.sub (PitchClass.ofDistance tol)).val))
    sorted_voices
  if s0 = sorted_voices.length then 0 else s0

/-- Rust `get_matching_voices` (src/editor/lattice/grid.rs line 1158).
Returns the subset of a (sorted) vector of voices matching a given pitch
class within the tolerance.  `none` models a scan that fails to terminate
within its fuel, proved unreachable below. -/
def get_matching_voices (pc : PitchClass) (sorted_voices : List Voice)
    (tol : PitchClassDistance) : Option (List Voice) :=
  if sorted_voices.length = 0 then some []
  else
    match forwardScan sorted_voices pc tol (matchStart pc sorted_voices tol)
        (sorted_voices.length + 1) (matchStart pc sorted_voices tol) with
    | none => none
    | some (l, true) => some l
    | some (l, false) =>
      match backwardScan sorted_voices pc tol (sorted_voices.length + 1)
          (matchStart pc sorted_voices tol) with
      | none => none
      | some l2 => some (l ++ l2)

/-! ## Correctness development for the voice matcher -/

/-- The matching predicate of `get_matching_voices`: distance to the target
within tolerance (the negation of the loops' `break` condition). -/
def voiceMatch (pc : PitchClass) (tol : PitchClassDistance) (v : Voice) : Bool :=
  decide ((v.pitch_class.distance_to pc).val ≤ tol.val)

theorem voiceMatch_false_iff (pc : PitchClass) (tol : PitchClassDistance) (v : Voice) :
    voiceMatch pc tol v = false ↔ tol.val < (v.pitch_class.distance_to pc).val := by
  simp [voiceMatch]

theorem voiceMatch_true_iff (pc : PitchClass) (tol : PitchClassDistance) (v : Voice) :
    voiceMatch pc tol v = true ↔ (v.pitch_class.distance_to pc).val ≤ tol.val := by
  simp [voiceMatch]

theorem stepFwd_eq (n idx : Nat) (h : idx < n) : stepFwd n idx = (idx + 1) % n := by
  unfold stepFwd
  by_cases he : idx = n - 1
  · rw [if_pos he]
    have : idx + 1 = n := by omega
    rw [this, Nat.mod_self]
  · rw [if_neg he]
    exact (Nat.mod_eq_of_lt (by omega)).symm

theorem stepBwd_eq (n idx : Nat) (h : idx < n) : stepBwd n idx = (idx + (n - 1)) % n := by
  unfold stepBwd
  by_cases he : idx = 0
  · rw [if_pos he, he, Nat.zero_add]
    exact (Nat.mod_eq_of_lt (show n - 1 < n by omega)).symm
  · rw [if_neg he]
    have h1 : idx + (n - 1) = n + (idx - 1) := by omega
    rw [h1, Nat.add_mod_left]
    exact (Nat.mod_eq_of_lt (by omega)).symm

/-- Helper: stepping forward from position `t` of the rotation reaches the
start index again exactly at the end of the full circle. -/
theorem stepFwd_circle_iff (s t n : Nat) (hs : s < n) (ht : t < n) :
    ((s + t + 1) % n = s ↔ t + 1 = n) := by
  constructor
  · intro h
    by_cases hlt : s + t + 1 < n
    · rw [Nat.mod_eq_of_lt hlt] at h
      omega
    · have h1 : s + t + 1 = n + (s + t + 1 - n) := by omega
      rw [h1, Nat.add_mod_left, Nat.mod_eq_of_lt (by omega)] at h
      omega
  · intro h
    rw [show s + t + 1 = n + s by omega, Nat.add_mod_left]
    exact Nat.mod_eq_of_lt hs

theorem rot_length (vs : List Voice) (s : Nat) :
    (vs.drop s ++ vs.take s).length = vs.length := by
  simp only [List.length_append, List.length_drop, List.length_take]
  omega

/-- Helper: element `t` of the rotation of `vs` by `s` is element
`(s + t) % n` of `vs`. -/
theorem rot_getElem? (vs : List Voice) (s t : Nat) (hs : s < vs.length)
    (ht : t < vs.length) :
    (vs.drop s ++ vs.take s)[t]? = vs[(s + t) % vs.length]? := by
  rw [List.getElem?_append]
  by_cases hlt : t < vs.length - s
  · rw [if_pos (by simpa using hlt), List.getElem?_drop]
    congr 1
    exact (Nat.mod_eq_of_lt (by omega)).symm
  · rw [if_neg (by simpa using hlt), List.getElem?_take, List.length_drop]
    have hidx : (s + t) % vs.length = t - (vs.length - s) := by
      have h1 : s + t = vs.length + (t - (vs.length - s)) := by omega
      rw [h1, Nat.add_mod_left]
      exact Nat.mod_eq_of_lt (by omega)
    rw [hidx, if_pos (by omega)]

/-- Helper: one unfolding of the forward scan when the index is in bounds. -/
theorem forwardScan_succ_some (vs : List Voice) (pc : PitchClass)
    (tol : PitchClassDistance) (s fuel idx : Nat) (v : Voice)
    (hv : vs[idx]? = some v) :
    forwardScan vs pc tol s (fuel + 1) idx =
      (if tol.val < (v.pitch_class.distance_to pc).val then some ([], false)
       else if stepFwd vs.length idx = s then some ([v], true)
       else
         match forwardScan vs pc tol s fuel (stepFwd vs.length idx) with
         | none => none
         | some (l, b) => some (v :: l, b)) := by
  conv_lhs => rw [forwardScan]
  rw [hv]

/-- Characterization of the forward scan along the rotation of the voice
list: started at offset `t` of the rotation with fuel one more than the
remaining length, it returns the whole remaining rotation with the
full-circle flag when every remaining voice matches, and otherwise the
leading run of matches with the broke flag. -/
theorem forwardScan_eq (vs : List Voice) (pc : PitchClass) (tol : PitchClassDistance)
    (s : Nat) (hs : s < vs.length) :
    ∀ (rest : List Voice) (t : Nat), t < vs.length →
      rest = (vs.drop s ++ vs.take s).drop t →
      forwardScan vs pc tol s (rest.length + 1) ((s + t) % vs.length) =
        (if rest.all (voiceMatch pc tol) then some (rest, true)
         else some (rest.takeWhile (voiceMatch pc tol), false)) := by
  intro rest
  induction rest with
  | nil =>
    intro t ht hrest
    exfalso
    have hlen := congrArg List.length hrest
    simp only [List.length_nil, List.length_drop, rot_length] at hlen
    omega
  | cons v rest' ih =>
    intro t ht hrest
    have hn : 0 < vs.length := by omega
    have hmodlt : (s + t) % vs.length < vs.length := Nat.mod_lt _ hn
    have hv : vs[(s + t) % vs.length]? = some v := by
      rw [← rot_getElem? vs s t hs ht]
      have h0 : ((vs.drop s ++ vs.take s).drop t)[0]? = some v := by
        rw [← hrest]
        simp
      rw [List.getElem?_drop] at h0
      simpa using h0
    rw [List.length_cons,
      forwardScan_succ_some vs pc tol s (rest'.length + 1) _ v hv]
    by_cases hm : voiceMatch pc tol v
    · have hnm : ¬ tol.val < (v.pitch_class.distance_to pc).val := by
        rw [voiceMatch_true_iff] at hm
        omega
      rw [if_neg hnm, stepFwd_eq _ _ hmodlt, Nat.mod_add_mod]
      by_cases hcirc : (s + t + 1) % vs.length = s
      · have ht1 : t + 1 = vs.length := (stepFwd_circle_iff s t _ hs ht).mp hcirc
        have hrest' : rest' = [] := by
          have hdd : (vs.drop s ++ vs.take s).drop (t + 1) = rest' := by
            rw [← List.drop_drop 1 t, ← hrest]
            rfl
          rw [List.drop_eq_nil_of_le (by rw [rot_length]; omega)] at hdd
          exact hdd.symm
        subst hrest'
        rw [if_pos hcirc]
        simp [hm]
      · have ht1 : t + 1 < vs.length := by
          have hne : t + 1 ≠ vs.length := fun hh =>
            hcirc ((stepFwd_circle_iff s t _ hs ht).mpr hh)
          omega
        have hrest' : rest' = (vs.drop s ++ vs.take s).drop (t + 1) := by
          rw [← List.drop_drop 1 t, ← hrest]
          simp
        rw [if_neg hcirc, show s + t + 1 = s + (t + 1) from by omega,
          ih (t + 1) ht1 hrest']
        by_cases hall : rest'.all (voiceMatch pc tol)
        · rw [if_pos hall]
          simp [hm, hall]
        · rw [if_neg hall]
          simp [hm, hall]
    · have hbm : tol.val < (v.pitch_class.distance_to pc).val := by
        rw [Bool.not_eq_true, voiceMatch_false_iff] at hm
        exact hm
      rw [if_pos hbm]
      have hmfalse : voiceMatch pc tol v = false := by
        rw [voiceMatch_false_iff]
        exact hbm
      simp [hmfalse]

/-- Helper: the backward scan stops immediately (returning no voices) when the
element just before the start index — the last element of the rotation — does
not match. -/
theorem backwardScan_stop (vs : List Voice) (pc : PitchClass)
    (tol : PitchClassDistance) (s fuel : Nat) (hs : s < vs.length) (v : Voice)
    (hv : vs[(s + (vs.length - 1)) % vs.length]? = some v)
    (hnm : tol.val < (v.pitch_class.distance_to pc).val) :
    backwardScan vs pc tol (fuel + 1) s = some [] := by
  conv_lhs => rw [backwardScan]
  rw [stepBwd_eq _ _ hs, hv]
  simp [hnm]

/-- Helper: for a predicate that is downward closed along a list (if a later
element satisfies it, so does every earlier one), the leading run of
satisfying elements is the whole satisfying sublist. -/
theorem takeWhile_eq_filter_of_mono (p : Voice → Bool) (l : List Voice)
    (h : List.Pairwise (fun a b => p b = true → p a = true) l) :
    l.takeWhile p = l.filter p := by
  induction l with
  | nil => rfl
  | cons a l' ih =>
    obtain ⟨hhead, htail⟩ := List.pairwise_cons.mp h
    by_cases ha : p a
    · simp [List.takeWhile_cons, List.filter_cons, ha, ih htail]
    · have hnone : l'.filter p = [] := by
        rw [List.filter_eq_nil_iff]
        intro b hb hpb
        exact ha (hhead b hb hpb)
      simp [List.takeWhile_cons, List.filter_cons, ha, hnone]

/-- Helper: when a downward-closed predicate fails somewhere in the list, it
fails at the last element. -/
theorem last_false_of_not_all (p : Voice → Bool) (l : List Voice)
    (h : List.Pairwise (fun a b => p b = true → p a = true) l)
    (hall : ¬ l.all p) :
    ∃ v, l[l.length - 1]? = some v ∧ p v = false := by
  induction l with
  | nil => simp at hall
  | cons a l' ih =>
    obtain ⟨hhead, htail⟩ := List.pairwise_cons.mp h
    cases l' with
    | nil =>
      refine ⟨a, rfl, ?_⟩
      simp only [List.all_cons, List.all_nil, Bool.and_true] at hall
      simp [hall]
    | cons b l'' =>
      by_cases hall' : (b :: l'').all p
      · exfalso
        have hpb : p b = true := by
          have := List.all_eq_true.mp hall' b (List.mem_cons_self b l'')
          exact this
        have hpa : p a = true := hhead b (List.mem_cons_self b l'') hpb
        apply hall
        simp [List.all_cons, hpa, hall']
      · obtain ⟨v, hv, hpv⟩ := ih htail hall'
        refine ⟨v, ?_, hpv⟩
        simpa using hv

/-- Helper: the value of the search key `target - tolerance` (the lower edge
of the matching arc). -/
theorem matchLo_val (pc : PitchClass) (tol : PitchClassDistance)
    (htol : 2 * tol.val ≤ OCTAVE_MICROCENTS) :
    (pc.sub (PitchClass.ofDistance tol)).val =
      (pc.val + (OCTAVE_MICROCENTS - tol.val)) % OCTAVE_MICROCENTS := by
  simp only [PitchClass.sub, PitchClass.add, PitchClass.neg, PitchClass.ofDistance,
    PitchClass.from_microcents]
  rw [Nat.mod_eq_of_lt (show tol.val < OCTAVE_MICROCENTS by
    unfold OCTAVE_MICROCENTS at *
    omega)]

/-- Helper: a voice matches the target within tolerance exactly when its
position relative to the arc's lower edge is at most the arc's width. -/
theorem voiceMatch_iff_arc (pc : PitchClass) (tol : PitchClassDistance) (v : Voice)
    (hx : v.pitch_class.val < OCTAVE_MICROCENTS) (hb : pc.val < OCTAVE_MICROCENTS)
    (hc : 2 * tol.val ≤ OCTAVE_MICROCENTS) :
    (voiceMatch pc tol v = true ↔
      (v.pitch_class.val +
        (OCTAVE_MICROCENTS - (pc.val + (OCTAVE_MICROCENTS - tol.val)) % OCTAVE_MICROCENTS)) %
        OCTAVE_MICROCENTS ≤ 2 * tol.val) := by
  rw [voiceMatch_true_iff]
  simp only [PitchClass.distance_to, PitchClass.sub, PitchClass.add, PitchClass.neg]
  unfold OCTAVE_MICROCENTS at *
  omega

/-- Helper: positions relative to the arc's lower edge increase along the
rotated order (first the block at or above the edge, then the block below
it). -/
theorem arcPos_mono (x y L : Nat) (hx : x < OCTAVE_MICROCENTS)
    (hy : y < OCTAVE_MICROCENTS) (hL : L < OCTAVE_MICROCENTS)
    (hcase : (x < L ∧ y < L ∧ x ≤ y) ∨ (L ≤ x ∧ L ≤ y ∧ x ≤ y) ∨ (L ≤ x ∧ y < L)) :
    (x + (OCTAVE_MICROCENTS - L)) % OCTAVE_MICROCENTS ≤
      (y + (OCTAVE_MICROCENTS - L)) % OCTAVE_MICROCENTS := by
  unfold OCTAVE_MICROCENTS at *
  omega

/-- Helper: if the leading run of a predicate covers the whole list, every
element satisfies the predicate. -/
theorem all_of_takeWhile_length (q : Voice → Bool) (l : List Voice)
    (h : (l.takeWhile q).length = l.length) : ∀ x ∈ l, q x = true := by
  induction l with
  | nil => simp
  | cons a l' ih =>
    by_cases ha : q a
    · rw [List.takeWhile_cons_of_pos ha] at h
      simp only [List.length_cons, Nat.add_right_cancel_iff] at h
      intro x hx
      rcases List.mem_cons.mp hx with hh | hh
      · rw [hh]
        exact ha
      · exact ih h x hh
    · rw [List.takeWhile_cons_of_neg ha] at h
      simp at h

/-- Helper: in a list sorted by pitch class, every element left after
dropping the leading run below the bound is at or above the bound. -/
theorem dropWhile_ge (vs : List Voice) (L : Nat)
    (hsort : List.Pairwise
      (fun a b : Voice => a.pitch_class.val ≤ b.pitch_class.val) vs) :
    ∀ x ∈ vs.dropWhile (fun v => decide (v.pitch_class.val < L)),
      ¬ (x.pitch_class.val < L) := by
  induction vs with
  | nil => simp
  | cons a l ih =>
    obtain ⟨hhead, htail⟩ := List.pairwise_cons.mp hsort
    by_cases ha : a.pitch_class.val < L
    · rw [List.dropWhile_cons_of_pos (by simpa using ha)]
      exact ih htail
    · rw [List.dropWhile_cons_of_neg (by simpa using ha)]
      intro x hx
      rcases List.mem_cons.mp hx with h | h
      · rw [h]
        exact ha
      · have := hhead x h
        omega

/-- Helper: along the rotation of the sorted voice list at the scan's start
index, the matching predicate is downward closed: if a later voice of the
rotation matches, so does every earlier one.  This is the heart of the
matcher's correctness: the matching arc is contiguous at the front of the
rotated order. -/
theorem rot_pairwise_match (pc : PitchClass) (tol : PitchClassDistance)
    (vs : List Voice)
    (hsort : List.Pairwise
      (fun a b : Voice => a.pitch_class.val ≤ b.pitch_class.val) vs)
    (hvalid : ∀ v ∈ vs, v.pitch_class.val < OCTAVE_MICROCENTS)
    (hpc : pc.val < OCTAVE_MICROCENTS) (htol : 2 * tol.val ≤ OCTAVE_MICROCENTS) :
    List.Pairwise
      (fun a b => voiceMatch pc tol b = true → voiceMatch pc tol a = true)
      (vs.drop (matchStart pc vs tol) ++ vs.take (matchStart pc vs tol)) := by
  have hLlt : (pc.sub (PitchClass.ofDistance tol)).val < OCTAVE_MICROCENTS :=
    Nat.mod_lt _ OCTAVE_MICROCENTS_pos
  have hmono : List.Pairwise (fun a b : Voice =>
      (a.pitch_class.val + (OCTAVE_MICROCENTS - (pc.sub (PitchClass.ofDistance tol)).val)) %
        OCTAVE_MICROCENTS ≤
      (b.pitch_class.val + (OCTAVE_MICROCENTS - (pc.sub (PitchClass.ofDistance tol)).val)) %
        OCTAVE_MICROCENTS)
      (vs.drop (matchStart pc vs tol) ++ vs.take (matchStart pc vs tol)) := by
    have hms : matchStart pc vs tol =
        if (vs.takeWhile (fun v =>
            decide (v.pitch_class.val < (pc.sub (PitchClass.ofDistance tol)).val))).length =
          vs.length
        then 0
        else (vs.takeWhile (fun v =>
          decide (v.pitch_class.val < (pc.sub (PitchClass.ofDistance tol)).val))).length :=
      rfl
    by_cases hfull :
        (vs.takeWhile (fun v =>
          decide (v.pitch_class.val < (pc.sub (PitchClass.ofDistance tol)).val))).length =
        vs.length
    · rw [hms, if_pos hfull]
      simp only [List.drop_zero, List.take_zero, List.append_nil]
      have hallq := all_of_takeWhile_length _ vs hfull
      refine List.Pairwise.imp_of_mem ?_ hsort
      intro a b ha hb hab
      refine arcPos_mono _ _ _ (hvalid a ha) (hvalid b hb) hLlt (Or.inl ⟨?_, ?_, hab⟩)
      · simpa using hallq a ha
      · simpa using hallq b hb
    · rw [hms, if_neg hfull]
      have hTD := List.takeWhile_append_dropWhile
        (fun v : Voice =>
          decide (v.pitch_class.val < (pc.sub (PitchClass.ofDistance tol)).val)) vs
      have htake : vs.take (vs.takeWhile (fun v : Voice =>
          decide (v.pitch_class.val < (pc.sub (PitchClass.ofDistance tol)).val))).length =
          vs.takeWhile (fun v =>
            decide (v.pitch_class.val < (pc.sub (PitchClass.ofDistance tol)).val)) := by
        have h2 := List.take_left
          (vs.takeWhile (fun v : Voice =>
            decide (v.pitch_class.val < (pc.sub (PitchClass.ofDistance tol)).val)))
          (vs.dropWhile (fun v =>
            decide (v.pitch_class.val < (pc.sub (PitchClass.ofDistance tol)).val)))
        rw [hTD] at h2
        exact h2
      have hdrop : vs.drop (vs.takeWhile (fun v : Voice =>
          decide (v.pitch_class.val < (pc.sub (PitchClass.ofDistance tol)).val))).length =
          vs.dropWhile (fun v =>
            decide (v.pitch_class.val < (pc.sub (PitchClass.ofDistance tol)).val)) := by
        have h2 := List.drop_left
          (vs.takeWhile (fun v : Voice =>
            decide (v.pitch_class.val < (pc.sub (PitchClass.ofDistance tol)).val)))
          (vs.dropWhile (fun v =>
            decide (v.pitch_class.val < (pc.sub (PitchClass.ofDistance tol)).val)))
        rw [hTD] at h2
        exact h2
      rw [htake, hdrop]
      have hT : ∀ x ∈ vs.takeWhile (fun v : Voice =>
          decide (v.pitch_class.val < (pc.sub (PitchClass.ofDistance tol)).val)),
          x.pitch_class.val < (pc.sub (PitchClass.ofDistance tol)).val := by
        intro x hx
        simpa using List.mem_takeWhile_imp hx
      have hD := dropWhile_ge vs (pc.sub (PitchClass.ofDistance tol)).val hsort
      have hTmem : ∀ x ∈ vs.takeWhile (fun v : Voice =>
          decide (v.pitch_class.val < (pc.sub (PitchClass.ofDistance tol)).val)), x ∈ vs :=
        fun x hx => (List.takeWhile_sublist _).subset hx
      have hDmem : ∀ x ∈ vs.dropWhile (fun v : Voice =>
          decide (v.pitch_class.val < (pc.sub (PitchClass.ofDistance tol)).val)), x ∈ vs :=
        fun x hx => (List.dropWhile_sublist _).subset hx
      rw [List.pairwise_append]
      refine ⟨?_, ?_, ?_⟩
      · refine List.Pairwise.imp_of_mem ?_
          (hsort.sublist (List.dropWhile_sublist _))
        intro a b ha hb hab
        exact arcPos_mono _ _ _ (hvalid a (hDmem a ha)) (hvalid b (hDmem b hb)) hLlt
          (Or.inr (Or.inl ⟨Nat.le_of_not_lt (hD a ha), Nat.le_of_not_lt (hD b hb), hab⟩))
      · refine List.Pairwise.imp_of_mem ?_
          (hsort.sublist (List.takeWhile_sublist _))
        intro a b ha hb hab
        exact arcPos_mono _ _ _ (hvalid a (hTmem a ha)) (hvalid b (hTmem b hb)) hLlt
          (Or.inl ⟨hT a ha, hT b hb, hab⟩)
      · intro a ha b hb
        exact arcPos_mono _ _ _ (hvalid a (hDmem a ha)) (hvalid b (hTmem b hb)) hLlt
          (Or.inr (Or.inr ⟨Nat.le_of_not_lt (hD a ha), hT b hb⟩))
  refine List.Pairwise.imp_of_mem ?_ hmono
  intro a b ha hb hrel hmb
  have hamem : a ∈ vs := by
    rcases List.mem_append.mp ha with h | h
    · exact List.mem_of_mem_drop h
    · exact List.mem_of_mem_take h
  have hbmem : b ∈ vs := by
    rcases List.mem_append.mp hb with h | h
    · exact List.mem_of_mem_drop h
    · exact List.mem_of_mem_take h
  rw [voiceMatch_iff_arc pc tol b (hvalid b hbmem) hpc htol,
    ← matchLo_val pc tol htol] at hmb
  rw [voiceMatch_iff_arc pc tol a (hvalid a hamem) hpc htol,
    ← matchLo_val pc tol htol]
  exact le_trans hrel hmb

/-- Helper: on a nonempty list the scan's start index is in bounds. -/
theorem matchStart_lt (pc : PitchClass) (vs : List Voice) (tol : PitchClassDistance)
    (h : 0 < vs.length) : matchStart pc vs tol < vs.length := by
  have hle : (vs.takeWhile (fun v : Voice =>
      decide (v.pitch_class.val < (pc.sub (PitchClass.ofDistance tol)).val))).length ≤
      vs.length :=
    (List.takeWhile_sublist _).length_le
  have hms : matchStart pc vs tol =
      if (vs.takeWhile (fun v : Voice =>
          decide (v.pitch_class.val < (pc.sub (PitchClass.ofDistance tol)).val))).length =
        vs.length
      then 0
      else (vs.takeWhile (fun v : Voice =>
        decide (v.pitch_class.val < (pc.sub (PitchClass.ofDistance tol)).val))).length :=
    rfl
  rw [hms]
  split
  · omega
  · rename_i hne
    omega

/-- Master characterization of `get_matching_voices` on sorted valid input:
the scans terminate and the function collects exactly the matching voices, in
the order of the rotation of the input list at the scan's start index. -/
theorem get_matching_voices_eq (pc : PitchClass) (vs : List Voice)
    (tol : PitchClassDistance)
    (hsort : List.Pairwise
      (fun a b : Voice => a.pitch_class.val ≤ b.pitch_class.val) vs)
    (hvalid : ∀ v ∈ vs, v.pitch_class.val < OCTAVE_MICROCENTS)
    (hpc : pc.val < OCTAVE_MICROCENTS) (htol : 2 * tol.val ≤ OCTAVE_MICROCENTS) :
    get_matching_voices pc vs tol =
      some ((vs.drop (matchStart pc vs tol) ++ vs.take (matchStart pc vs tol)).filter
        (voiceMatch pc tol)) := by
  by_cases hn : vs.length = 0
  · have hnil : vs = [] := List.length_eq_zero.mp hn
    subst hnil
    rfl
  · have hpos : 0 < vs.length := Nat.pos_of_ne_zero hn
    have hs : matchStart pc vs tol < vs.length := matchStart_lt pc vs tol hpos
    have hpair := rot_pairwise_match pc tol vs hsort hvalid hpc htol
    have hfwd := forwardScan_eq vs pc tol (matchStart pc vs tol) hs
      (vs.drop (matchStart pc vs tol) ++ vs.take (matchStart pc vs tol)) 0 hpos
      (by rw [List.drop_zero])
    simp only [Nat.add_zero, Nat.mod_eq_of_lt hs, rot_length] at hfwd
    unfold get_matching_voices
    rw [if_neg hn]
    by_cases hall : (vs.drop (matchStart pc vs tol) ++
        vs.take (matchStart pc vs tol)).all (voiceMatch pc tol)
    · have hfilter : (vs.drop (matchStart pc vs tol) ++
          vs.take (matchStart pc vs tol)).filter (voiceMatch pc tol) =
          vs.drop (matchStart pc vs tol) ++ vs.take (matchStart pc vs tol) :=
        List.filter_eq_self.mpr (List.all_eq_true.mp hall)
      rw [hfwd, if_pos hall, hfilter]
    · obtain ⟨v, hv, hpv⟩ := last_false_of_not_all _ _ hpair (by simpa using hall)
      rw [rot_length] at hv
      have hvidx : vs[(matchStart pc vs tol + (vs.length - 1)) % vs.length]? = some v := by
        rw [← rot_getElem? vs _ (vs.length - 1) hs (by omega)]
        exact hv
      have hbwd := backwardScan_stop vs pc tol (matchStart pc vs tol) vs.length hs v
        hvidx ((voiceMatch_false_iff pc tol v).mp hpv)
      rw [hfwd, if_neg hall, hbwd,
        takeWhile_eq_filter_of_mono (voiceMatch pc tol) _ hpair]
      simp

/-- C2: for every list of voices sorted ascending by pitch class (with valid
pitch classes, target and tolerance), `get_matching_voices` terminates and
returns exactly the voices whose pitch-class distance to the target is within
the tolerance, each occurrence exactly once (the result is a permutation of
the filtered input); this includes match sets spanning the `0`/octave
boundary, and the empty input yields the empty result. -/
theorem spec_C2 (pc : PitchClass) (vs : List Voice) (tol : PitchClassDistance)
    (hsort : List.Pairwise
      (fun a b : Voice => a.pitch_class.val ≤ b.pitch_class.val) vs)
    (hvalid : ∀ v ∈ vs, v.pitch_class.val < OCTAVE_MICROCENTS)
    (hpc : pc.val < OCTAVE_MICROCENTS) (htol : 2 * tol.val ≤ OCTAVE_MICROCENTS) :
    ∃ l, get_matching_voices pc vs tol = some l ∧
      l.Perm (vs.filter (voiceMatch pc tol)) := by
  refine ⟨_, get_matching_voices_eq pc vs tol hsort hvalid hpc htol, ?_⟩
  have hperm : (vs.drop (matchStart pc vs tol) ++
      vs.take (matchStart pc vs tol)).Perm vs := by
    have h1 : (vs.drop (matchStart pc vs tol) ++ vs.take (matchStart pc vs tol)).Perm
        (vs.take (matchStart pc vs tol) ++ vs.drop (matchStart pc vs tol)) :=
      List.perm_append_comm
    rw [List.take_append_drop] at h1
    exact h1
  exact hperm.filter _

/-- Witness for `spec_C2`: a concrete sorted list whose match set spans the
`0`/octave boundary. -/
theorem spec_C2_w :
    ∃ l, get_matching_voices ⟨123⟩
        [⟨0, ⟨123⟩⟩, ⟨0, ⟨700000000⟩⟩, ⟨0, ⟨1199999877⟩⟩] ⟨246⟩ = some l ∧
      l.Perm (List.filter (voiceMatch ⟨123⟩ ⟨246⟩)
        [⟨0, ⟨123⟩⟩, ⟨0, ⟨700000000⟩⟩, ⟨0, ⟨1199999877⟩⟩]) :=
  spec_C2 ⟨123⟩ [⟨0, ⟨123⟩⟩, ⟨0, ⟨700000000⟩⟩, ⟨0, ⟨1199999877⟩⟩] ⟨246⟩
    (by decide) (by decide) (by decide) (by decide)

/-- C10: on every non-empty sorted voice list (valid values), both circular
scans of `get_matching_voices` terminate: the whole search returns a result
(`isSome`, i.e. the fuel bound of one pass around the list is never
exhausted), the forward scan returns (stopping at a non-matching voice or
upon coming back to the start index), and whenever the forward scan stops at
a non-match — the only way the backward scan is entered — the list contains a
non-matching voice and the backward scan stops as well (immediately, since
the voice just before the start index cannot match). -/
theorem spec_C10 (pc : PitchClass) (vs : List Voice) (tol : PitchClassDistance)
    (hne : vs ≠ [])
    (hsort : List.Pairwise
      (fun a b : Voice => a.pitch_class.val ≤ b.pitch_class.val) vs)
    (hvalid : ∀ v ∈ vs, v.pitch_class.val < OCTAVE_MICROCENTS)
    (hpc : pc.val < OCTAVE_MICROCENTS) (htol : 2 * tol.val ≤ OCTAVE_MICROCENTS) :
    (get_matching_voices pc vs tol).isSome ∧
    forwardScan vs pc tol (matchStart pc vs tol) (vs.length + 1)
      (matchStart pc vs tol) ≠ none ∧
    (∀ l, forwardScan vs pc tol (matchStart pc vs tol) (vs.length + 1)
        (matchStart pc vs tol) = some (l, false) →
      (∃ v ∈ vs, tol.val < (v.pitch_class.distance_to pc).val) ∧
      backwardScan vs pc tol (vs.length + 1) (matchStart pc vs tol) = some []) := by
  have hpos : 0 < vs.length := List.length_pos.mpr hne
  have hs : matchStart pc vs tol < vs.length := matchStart_lt pc vs tol hpos
  have hpair := rot_pairwise_match pc tol vs hsort hvalid hpc htol
  have hfwd := forwardScan_eq vs pc tol (matchStart pc vs tol) hs
    (vs.drop (matchStart pc vs tol) ++ vs.take (matchStart pc vs tol)) 0 hpos
    (by rw [List.drop_zero])
  simp only [Nat.add_zero, Nat.mod_eq_of_lt hs, rot_length] at hfwd
  refine ⟨?_, ?_, ?_⟩
  · rw [get_matching_voices_eq pc vs tol hsort hvalid hpc htol]
    rfl
  · rw [hfwd]
    split <;> simp
  · intro l hl
    rw [hfwd] at hl
    by_cases hall : (vs.drop (matchStart pc vs tol) ++
        vs.take (matchStart pc vs tol)).all (voiceMatch pc tol)
    · rw [if_pos hall] at hl
      simp at hl
    · constructor
      · have hex : ∃ v ∈ vs.drop (matchStart pc vs tol) ++
            vs.take (matchStart pc vs tol), voiceMatch pc tol v = false := by
          by_contra hcon
          push_neg at hcon
          apply hall
          rw [List.all_eq_true]
          intro x hx
          have hx2 := hcon x hx
          simpa using hx2
        obtain ⟨v, hv, hnp⟩ := hex
        have hvmem : v ∈ vs := by
          rcases List.mem_append.mp hv with h | h
          · exact List.mem_of_mem_drop h
          · exact List.mem_of_mem_take h
        exact ⟨v, hvmem, (voiceMatch_false_iff pc tol v).mp hnp⟩
      · obtain ⟨v, hv, hpv⟩ := last_false_of_not_all _ _ hpair (by simpa using hall)
        rw [rot_length] at hv
        have hvidx : vs[(matchStart pc vs tol + (vs.length - 1)) % vs.length]? =
            some v := by
          rw [← rot_getElem? vs _ (vs.length - 1) hs (by omega)]
          exact hv
        exact backwardScan_stop vs pc tol (matchStart pc vs tol) vs.length hs v
          hvidx ((voiceMatch_false_iff pc tol v).mp hpv)

/-- Witness for `spec_C10` at a concrete non-empty sorted list. -/
theorem spec_C10_w :
    (get_matching_voices ⟨123⟩ [⟨0, ⟨100000000⟩⟩, ⟨0, ⟨700000000⟩⟩] ⟨246⟩).isSome ∧
    forwardScan [⟨0, ⟨100000000⟩⟩, ⟨0, ⟨700000000⟩⟩] ⟨123⟩ ⟨246⟩
      (matchStart ⟨123⟩ [⟨0, ⟨100000000⟩⟩, ⟨0, ⟨700000000⟩⟩] ⟨246⟩) (2 + 1)
      (matchStart ⟨123⟩ [⟨0, ⟨100000000⟩⟩, ⟨0, ⟨700000000⟩⟩] ⟨246⟩) ≠ none ∧
    (∀ l, forwardScan [⟨0, ⟨100000000⟩⟩, ⟨0, ⟨700000000⟩⟩] ⟨123⟩ ⟨246⟩
        (matchStart ⟨123⟩ [⟨0, ⟨100000000⟩⟩, ⟨0, ⟨700000000⟩⟩] ⟨246⟩) (2 + 1)
        (matchStart ⟨123⟩ [⟨0, ⟨100000000⟩⟩, ⟨0, ⟨700000000⟩⟩] ⟨246⟩) =
        some (l, false) →
      (∃ v ∈ [(⟨0, ⟨100000000⟩⟩ : Voice), ⟨0, ⟨700000000⟩⟩],
        (246 : Nat) < (v.pitch_class.distance_to ⟨123⟩).val) ∧
      backwardScan [⟨0, ⟨100000000⟩⟩, ⟨0, ⟨700000000⟩⟩] ⟨123⟩ ⟨246⟩ (2 + 1)
        (matchStart ⟨123⟩ [⟨0, ⟨100000000⟩⟩, ⟨0, ⟨700000000⟩⟩] ⟨246⟩) = some []) :=
  spec_C10 ⟨123⟩ [⟨0, ⟨100000000⟩⟩, ⟨0, ⟨700000000⟩⟩] ⟨246⟩
    (by decide) (by decide) (by decide) (by decide) (by decide)
